import Mathlib

/-
Verification of the generic multi-dimensional binned-lookup evaluator
underlying the coffea lookup_tools package, as exercised by the notebook
binder/applying_corrections.ipynb.  The library implementation itself is
not shipped with the repository, so every definition below is modelled
from the specification of that evaluator (axes with strictly increasing
edges, clamping bin lookup, dense payload tables, formula evaluation,
the extractor registry, the jet-energy lookups and the jet transformer).
-/

/-- Modelled from the spec: the out-of-range clamping bin locator of a
BinnedTable axis.  The spec describes a binary search over the strictly
increasing edge sequence with underflow clamped to bin 0 and overflow
clamped to the last bin; this realises the same function by counting the
interior edges that lie at or below the coordinate, which is
extensionally equal to the clamped binary search. -/
def bin_index (edges : List ℚ) (x : ℚ) : ℕ :=
  ((edges.drop 1).dropLast).countP (fun e => decide (e ≤ x))

/-- Counting lemma: on a list whose elements at positions below i are at
most x and whose elements from position i on exceed x, the count of
elements at most x is exactly i. -/
theorem countP_le_eq_of_split (x : ℚ) :
    ∀ (l : List ℚ) (i : ℕ), i ≤ l.length →
    (∀ j (hj : j < l.length), (j < i ↔ l.get ⟨j, hj⟩ ≤ x)) →
    l.countP (fun e => decide (e ≤ x)) = i := by
  intro l
  induction l with
  | nil =>
    intro i hi _
    simp at hi
    simp [hi]
  | cons a t ih =>
    intro i hi hsplit
    cases i with
    | zero =>
      have hnone : ∀ e ∈ a :: t, ¬ (e ≤ x) := by
        intro e he
        rcases List.mem_iff_get.mp he with ⟨⟨j, hj⟩, rfl⟩
        have := (hsplit j hj).mpr
        intro hle
        exact absurd (this hle) (by omega)
      rw [List.countP_eq_zero]
      intro e he
      simpa using hnone e he
    | succ k =>
      have ha : a ≤ x := by
        have h0 : 0 < (a :: t).length := by simp
        exact (hsplit 0 h0).mp (Nat.succ_pos k)
      have htail : t.countP (fun e => decide (e ≤ x)) = k := by
        apply ih k (by simpa using hi)
        intro j hj
        have hj' : j + 1 < (a :: t).length := by simpa using Nat.succ_lt_succ hj
        have := hsplit (j + 1) hj'
        constructor
        · intro hjk
          exact this.mp (by omega)
        · intro hle
          have := this.mpr (by simpa using hle)
          omega
      simp [List.countP_cons, htail, ha]

/-- Interior edges of an axis, as positions of the full edge list. -/
theorem interior_get (edges : List ℚ) (j : ℕ)
    (hj : j < ((edges.drop 1).dropLast).length) :
    ((edges.drop 1).dropLast).get ⟨j, hj⟩ =
      edges.get ⟨j + 1, by simp at hj; omega⟩ := by
  have h1 : j < (edges.drop 1).length - 1 := by simpa using hj
  simp [List.getElem_dropLast, List.getElem_drop]

theorem interior_length (edges : List ℚ) :
    ((edges.drop 1).dropLast).length = edges.length - 2 := by
  simp
  omega

/-- C1. For every axis with strictly increasing edges, bin_index is
monotonic non-decreasing in the coordinate, returns bin 0 for every
coordinate at or below the first edge, returns the last bin for every
coordinate at or above the last edge, and always returns a valid bin
index (out-of-range coordinates are clamped, never dropped and never an
error). -/
theorem bin_index_monotone_and_clamps (edges : List ℚ)
    (hs : List.Sorted (· < ·) edges) (h2 : 2 ≤ edges.length) :
    (∀ x y : ℚ, x ≤ y → bin_index edges x ≤ bin_index edges y) ∧
    (∀ x e0, edges.head? = some e0 → x ≤ e0 → bin_index edges x = 0) ∧
    (∀ x en, edges.getLast? = some en → en ≤ x →
      bin_index edges x = edges.length - 2) ∧
    (∀ x : ℚ, bin_index edges x ≤ edges.length - 2) := by
  have hmono := List.Sorted.get_strictMono hs
  refine ⟨?_, ?_, ?_, ?_⟩
  · intro x y hxy
    unfold bin_index
    apply List.countP_mono_left
    intro a _ ha
    simp at ha ⊢
    linarith
  · intro x e0 h0 hx
    have hlen0 : 0 < edges.length := by omega
    have he0 : edges.get ⟨0, hlen0⟩ = e0 := by
      cases edges with
      | nil => simp at h0
      | cons a t => simp at h0; simp [h0]
    unfold bin_index
    apply countP_le_eq_of_split x _ 0 (Nat.zero_le _)
    intro j hj
    rw [interior_get edges j hj]
    have hlt : edges.get ⟨0, hlen0⟩ < edges.get ⟨j + 1, by simp at hj; omega⟩ := by
      apply hmono
      simp
    constructor
    · omega
    · intro hle
      rw [he0] at hlt
      exfalso
      linarith
  · intro x en hlast hx
    have hne : edges ≠ [] := by
      intro h
      rw [h] at h2
      simp at h2
    have hlenpos : edges.length - 1 < edges.length := by omega
    have hen : edges.get ⟨edges.length - 1, hlenpos⟩ = en := by
      have := List.getLast_eq_getElem edges hne
      have h2' := List.getLast?_eq_getLast edges hne
      rw [hlast] at h2'
      have : edges.getLast hne = en := by
        injection h2'.symm
      simpa [List.getLast_eq_getElem] using this
    unfold bin_index
    rw [← interior_length edges]
    apply countP_le_eq_of_split x _ _ (le_refl _)
    intro j hj
    rw [interior_get edges j hj]
    have hj2 : j < edges.length - 2 := by
      rw [interior_length edges] at hj
      exact hj
    constructor
    · intro _
      have hle : edges.get ⟨j + 1, by omega⟩ ≤ edges.get ⟨edges.length - 1, hlenpos⟩ := by
        apply hmono.monotone
        simp
        omega
      rw [hen] at hle
      linarith
    · intro _
      exact hj
  · intro x
    unfold bin_index
    calc ((edges.drop 1).dropLast).countP (fun e => decide (e ≤ x)) ≤
        ((edges.drop 1).dropLast).length := List.countP_le_length _
      _ = edges.length - 2 := interior_length edges

/-- Witness for C1 at the JetEta axis of the spec scenario: edges
-2.4 and 2.4, with the in-range coordinate 1.0 and the out-of-range
coordinate 3.0 both clamped to bin 0. -/
theorem bin_index_monotone_and_clamps_witness :
    bin_index [(-2.4 : ℚ), 2.4] 3.0 = ([(-2.4 : ℚ), 2.4]).length - 2 ∧
    bin_index [(-2.4 : ℚ), 2.4] 1.0 ≤ ([(-2.4 : ℚ), 2.4]).length - 2 := by
  have h := bin_index_monotone_and_clamps [(-2.4 : ℚ), 2.4]
    (by simp [List.sorted_cons]; norm_num) (by simp)
  exact ⟨h.2.2.1 3.0 2.4 (by simp) (by norm_num), h.2.2.2 1.0⟩

/-- Modelled from the spec: a named axis of a BinnedTable, an ordered
sequence of strictly increasing bin edges (length = number of bins plus
one). -/
structure Axis where
  name : String
  edges : List ℚ

/-- Number of bins of an axis: one less than the number of edges. -/
def Axis.nbins (a : Axis) : ℕ := a.edges.length - 1

/-- Error taxonomy of the lookup core, from the spec section on error
handling, together with the registry misuse errors. -/
inductive LookupError where
  | DimensionMismatch
  | ShapeMismatch
  | DuplicateKey
  | AlreadySealed
  | UnknownKey
  | NotFinalized
deriving DecidableEq

/-- Modelled from the spec: the dense_lookup class of
coffea.lookup_tools, the BinnedTable of the spec.  It owns an ordered
sequence of axes and a dense payload array of size equal to the product
of the axis bin counts, addressed row-major by the tuple of per-axis bin
indices. -/
structure dense_lookup (α : Type) where
  axes : List Axis
  values : List α

/-- Spec alias: the design document calls the same object a BinnedTable. -/
abbrev BinnedTable := dense_lookup

/-- Row-major flat offset of a tuple of per-axis bin indices, given the
per-axis bin counts. -/
def flatIndex : List ℕ → List ℕ → ℕ
  | _ :: ns, i :: ix => i * ns.prod + flatIndex ns ix
  | _, _ => 0

theorem flatIndex_lt : ∀ {ns ix : List ℕ}, List.Forall₂ (· < ·) ix ns →
    flatIndex ns ix < ns.prod := by
  intro ns ix h
  induction h with
  | nil => simp [flatIndex]
  | cons hab _ ih =>
    rename_i i n ix' ns' _
    simp only [flatIndex, List.prod_cons]
    calc i * ns'.prod + flatIndex ns' ix' < i * ns'.prod + ns'.prod := by omega
      _ = (i + 1) * ns'.prod := by ring
      _ ≤ n * ns'.prod := Nat.mul_le_mul_right _ hab

/-- Modelled from the spec: lookup of a single coordinate tuple.  One
scalar per axis, clamped bin resolution per axis, row-major flat offset
into the payload.  Fails with DimensionMismatch when the tuple length
differs from the axis count. -/
def dense_lookup.lookup (t : dense_lookup α) (coords : List ℚ) :
    Except LookupError α :=
  if coords.length = t.axes.length then
    match t.values.get? (flatIndex (t.axes.map Axis.nbins)
        ((t.axes.zip coords).map (fun p => bin_index p.1.edges p.2))) with
    | some v => Except.ok v
    | none => Except.error LookupError.ShapeMismatch
  else Except.error LookupError.DimensionMismatch

/-- Validity invariant of a BinnedTable: every axis has at least two
strictly increasing edges and the payload length matches the product of
the bin counts. -/
def dense_lookup.valid (t : dense_lookup α) : Prop :=
  t.values.length = (t.axes.map Axis.nbins).prod ∧
  ∀ a ∈ t.axes, List.Sorted (· < ·) a.edges ∧ 2 ≤ a.edges.length

/-- Center of bin i of an axis. -/
def binCenter (edges : List ℚ) (i : ℕ) : ℚ :=
  (edges.getD i 0 + edges.getD (i + 1) 0) / 2

/-- In-bin lemma: a coordinate between two consecutive edges resolves to
the bin bounded by them. -/
theorem bin_index_of_between (edges : List ℚ)
    (hs : List.Sorted (· < ·) edges) (i : ℕ) (hi : i + 1 < edges.length)
    (x : ℚ) (hx1 : edges.get ⟨i, by omega⟩ ≤ x)
    (hx2 : x < edges.get ⟨i + 1, hi⟩) :
    bin_index edges x = i := by
  have hmono := List.Sorted.get_strictMono hs
  unfold bin_index
  apply countP_le_eq_of_split x _ i (by rw [interior_length]; omega)
  intro j hj
  rw [interior_get edges j hj]
  have hjlen : j + 1 < edges.length := by
    rw [interior_length] at hj
    omega
  constructor
  · intro hji
    have : edges.get ⟨j + 1, hjlen⟩ ≤ edges.get ⟨i, by omega⟩ := by
      apply hmono.monotone
      simp
      omega
    linarith
  · intro hle
    by_contra hge
    have : edges.get ⟨i + 1, hi⟩ ≤ edges.get ⟨j + 1, hjlen⟩ := by
      apply hmono.monotone
      simp
      omega
    linarith

/-- The bin center of every valid bin resolves back to that bin. -/
theorem bin_index_binCenter (edges : List ℚ)
    (hs : List.Sorted (· < ·) edges) (i : ℕ) (hi : i + 1 < edges.length) :
    bin_index edges (binCenter edges i) = i := by
  have hmono := List.Sorted.get_strictMono hs
  have hlt : edges.get ⟨i, by omega⟩ < edges.get ⟨i + 1, hi⟩ := by
    apply hmono
    simp
  have hgd1 : edges.getD i 0 = edges.get ⟨i, by omega⟩ := by
    simp [List.getD_eq_getElem?_getD, List.getElem?_eq_getElem (by omega : i < edges.length)]
  have hgd2 : edges.getD (i + 1) 0 = edges.get ⟨i + 1, hi⟩ := by
    simp [List.getD_eq_getElem?_getD, List.getElem?_eq_getElem hi]
  apply bin_index_of_between edges hs i hi
  · unfold binCenter
    rw [hgd1, hgd2]
    linarith
  · unfold binCenter
    rw [hgd1, hgd2]
    linarith

/-- The tuple of per-axis bin centers of a cell, one coordinate per axis. -/
def cellCenters (axes : List Axis) (ix : List ℕ) : List ℚ :=
  (axes.zip ix).map (fun p => binCenter p.1.edges p.2)

theorem map_bin_index_cellCenters :
    ∀ {axes : List Axis} {ix : List ℕ},
    List.Forall₂ (fun i a => i < Axis.nbins a) ix axes →
    (∀ a ∈ axes, List.Sorted (· < ·) a.edges ∧ 2 ≤ a.edges.length) →
    (axes.zip (cellCenters axes ix)).map (fun p => bin_index p.1.edges p.2) = ix := by
  intro axes ix hb
  induction hb with
  | nil =>
    intro _
    simp [cellCenters]
  | cons hab htail ih =>
    rename_i i a ix' axes'
    intro hs
    have hhead := (List.forall_mem_cons.mp hs).1
    have htl := (List.forall_mem_cons.mp hs).2
    have hi1 : i + 1 < a.edges.length := by
      have := hab
      unfold Axis.nbins at this
      omega
    simp only [cellCenters, List.zip_cons_cons, List.map_cons]
    congr 1
    · exact bin_index_binCenter a.edges hhead.1 i hi1
    · exact ih htl

/-- C5. Round-trip: for every valid BinnedTable and every cell, looking
up the tuple of exact bin centers of that cell returns exactly the
payload stored at the corresponding row-major offset, unchanged. -/
theorem dense_lookup_roundtrip {α : Type} (t : dense_lookup α) (hv : t.valid)
    (ix : List ℕ) (hb : List.Forall₂ (fun i a => i < Axis.nbins a) ix t.axes) :
    ∃ v, t.values.get? (flatIndex (t.axes.map Axis.nbins) ix) = some v ∧
      t.lookup (cellCenters t.axes ix) = Except.ok v := by
  have hlen : ix.length = t.axes.length := hb.length_eq
  have hblt : List.Forall₂ (· < ·) ix (t.axes.map Axis.nbins) := by
    rw [List.forall₂_map_right_iff]
    exact hb
  have hidx : flatIndex (t.axes.map Axis.nbins) ix < t.values.length := by
    rw [hv.1]
    exact flatIndex_lt hblt
  obtain ⟨v, hv'⟩ : ∃ v,
      t.values.get? (flatIndex (t.axes.map Axis.nbins) ix) = some v := by
    exact ⟨_, List.get?_eq_get hidx⟩
  refine ⟨v, hv', ?_⟩
  have hclen : (cellCenters t.axes ix).length = t.axes.length := by
    simp [cellCenters, hlen]
  unfold dense_lookup.lookup
  rw [if_pos hclen, map_bin_index_cellCenters hb hv.2, hv']

/-- Concrete two-axis table used as a witness: JetEta edges -2.4, 2.4
and JetPt edges 20, 30, 50 with two stored payload cells. -/
def sampleTable : dense_lookup ℚ :=
  { axes := [⟨"JetEta", [-2.4, 2.4]⟩, ⟨"JetPt", [20, 30, 50]⟩],
    values := [1.1, 1.2] }

theorem sampleTable_valid : sampleTable.valid := by
  constructor
  · simp [sampleTable, Axis.nbins]
  · intro a ha
    simp [sampleTable] at ha
    rcases ha with h | h <;> subst h <;>
      constructor <;> simp [List.sorted_cons] <;> norm_num

/-- Witness for C5: the cell (0,1) of the sample table round-trips. -/
theorem dense_lookup_roundtrip_witness :
    ∃ v, sampleTable.values.get?
        (flatIndex (sampleTable.axes.map Axis.nbins) [0, 1]) = some v ∧
      sampleTable.lookup (cellCenters sampleTable.axes [0, 1]) = Except.ok v :=
  dense_lookup_roundtrip sampleTable sampleTable_valid [0, 1]
    (List.Forall₂.cons (by simp [sampleTable, Axis.nbins])
      (List.Forall₂.cons (by simp [sampleTable, Axis.nbins]) List.Forall₂.nil))

/-- Modelled from the spec: element-wise application of lookup over a
ragged collection, one list of coordinate tuples per group (for example
per-event lists of per-jet coordinates), producing an output of the same
grouping structure. -/
def resolve_batch {α : Type} (t : dense_lookup α)
    (groups : List (List (List ℚ))) : List (List (Except LookupError α)) :=
  groups.map (fun g => g.map (fun coords => t.lookup coords))

/-- C2. resolve_batch preserves the ragged grouping structure exactly:
the output has the same number of groups in the same order, every output
group has the same length as the corresponding input group, and empty
groups map to empty groups. -/
theorem resolve_batch_preserves_shape {α : Type} (t : dense_lookup α)
    (groups : List (List (List ℚ))) :
    (resolve_batch t groups).length = groups.length ∧
    (resolve_batch t groups).map List.length = groups.map List.length ∧
    ∀ i, groups.get? i = some [] → (resolve_batch t groups).get? i = some [] := by
  refine ⟨by simp [resolve_batch], ?_, ?_⟩
  · simp [resolve_batch, List.map_map]
  · intro i hi
    simp only [List.get?_eq_getElem?] at hi ⊢
    simp [resolve_batch, List.getElem?_map, hi]

/-- Witness for C2 at the spec scenario of group sizes 0, 1 and 2: the
empty first group stays empty. -/
theorem resolve_batch_preserves_shape_witness :
    (resolve_batch sampleTable [[], [[1.0, 25]], [[1.0, 25], [3.0, 40]]]).get? 0 =
      some [] :=
  (resolve_batch_preserves_shape sampleTable
    [[], [[1.0, 25]], [[1.0, 25], [3.0, 40]]]).2.2 0 rfl

/-- Modelled from the spec: a compiled formula expression over one
independent variable and positionally bound named parameters.  String
parsing is out of scope in the spec (compile produces an evaluable
expression), so the compiled form is represented directly as a syntax
tree. -/
inductive Expr where
  | const (c : ℚ)
  | x
  | param (i : ℕ)
  | add (a b : Expr)
  | sub (a b : Expr)
  | mul (a b : Expr)
  | div (a b : Expr)
  | fmax (a b : Expr)
  | fmin (a b : Expr)

/-- Evaluation of a compiled expression: binds the parameter values
positionally and substitutes the independent value for the variable.  A
pure function of its arguments, hence deterministic and side-effect
free. -/
def Expr.eval (ps : List ℚ) (xv : ℚ) : Expr → ℚ
  | Expr.const c => c
  | Expr.x => xv
  | Expr.param i => ps.getD i 0
  | Expr.add a b => a.eval ps xv + b.eval ps xv
  | Expr.sub a b => a.eval ps xv - b.eval ps xv
  | Expr.mul a b => a.eval ps xv * b.eval ps xv
  | Expr.div a b => a.eval ps xv / b.eval ps xv
  | Expr.fmax a b => max (a.eval ps xv) (b.eval ps xv)
  | Expr.fmin a b => min (a.eval ps xv) (b.eval ps xv)

/-- The L2Relative jet energy correction formula of the notebook:
max(0.0001, p0 + ((x - p1) * (p2 + ((x - p1) * (p3 + ((x - p1) * p4)))))). -/
def jmeFormula : Expr :=
  Expr.fmax (Expr.const 0.0001)
    (Expr.add (Expr.param 0)
      (Expr.mul (Expr.sub Expr.x (Expr.param 1))
        (Expr.add (Expr.param 2)
          (Expr.mul (Expr.sub Expr.x (Expr.param 1))
            (Expr.add (Expr.param 3)
              (Expr.mul (Expr.sub Expr.x (Expr.param 1)) (Expr.param 4)))))))

/-- The first parameter row of the L2Relative table in the notebook. -/
def jmeParams : List ℚ :=
  [8.95328, 7, 8.9532766, 2.638647259, 7.816547526]

/-- C4. Formula evaluation is deterministic and side-effect-free: every
compiled expression evaluated twice at the same parameter vector and
independent value gives the same result, and the concrete L2Relative
formula at the notebook parameter row with x = 10 repeatably evaluates
to the exact rational 270.607718333 (the max clamp honored literally). -/
theorem formula_eval_deterministic :
    (∀ (e : Expr) (ps : List ℚ) (xv : ℚ),
      Expr.eval ps xv e = Expr.eval ps xv e) ∧
    Expr.eval jmeParams 10 jmeFormula = Expr.eval jmeParams 10 jmeFormula ∧
    Expr.eval jmeParams 10 jmeFormula = 270.607718333 := by
  refine ⟨fun _ _ _ => rfl, rfl, ?_⟩
  norm_num [jmeFormula, jmeParams, Expr.eval]

/-- Modelled from the spec: a formula-backed table in the style of
coffea.lookup_tools.jme_standard_function.  It has named binned
dimensions selecting the cell, named evaluation variables feeding the
formula, a table of per-cell parameter vectors, and one shared compiled
formula. -/
structure jme_standard_function where
  binnedDims : List String
  evalVars : List String
  table : dense_lookup (List ℚ)
  formula : Expr

/-- Public call signature of a formula-backed table: the deduplicated
union of binned dimensions and evaluation variables, keeping first
occurrences in order, so the caller passes each named coordinate exactly
once. -/
def jme_signature (f : jme_standard_function) : List String :=
  (f.binnedDims ++ f.evalVars).dedup

/-- Modelled from the spec: calling a formula-backed table.  One
argument per signature entry; the binned dimensions select the cell via
their position in the signature, and the first evaluation variable is
fed to the formula as the independent value.  A dimension that is both
binned and an evaluation variable is passed once and used for both. -/
def jme_call (f : jme_standard_function) (args : List ℚ) :
    Except LookupError ℚ :=
  if args.length = (jme_signature f).length then
    let argOf := fun (n : String) =>
      args.getD (List.indexOf n (jme_signature f)) 0
    match f.table.lookup (f.binnedDims.map argOf) with
    | Except.ok ps =>
        Except.ok (Expr.eval ps (argOf (f.evalVars.getD 0 "")) f.formula)
    | Except.error e => Except.error e
  else Except.error LookupError.DimensionMismatch

/-- C8. For a formula-backed table whose evaluation variable JetPt is
also one of its binned dimensions, the public call signature is the
deduplicated union (JetEta, JetPt); the caller passes each coordinate
exactly once and the single JetPt value is used both to select the bin
and as the independent variable of the formula. -/
theorem jme_call_shared_variable (t : dense_lookup (List ℚ)) (e : Expr)
    (eta pt : ℚ) :
    jme_signature ⟨["JetEta", "JetPt"], ["JetPt"], t, e⟩ =
      ["JetEta", "JetPt"] ∧
    jme_call ⟨["JetEta", "JetPt"], ["JetPt"], t, e⟩ [eta, pt] =
      match t.lookup [eta, pt] with
      | Except.ok ps => Except.ok (Expr.eval ps pt e)
      | Except.error err => Except.error err := by
  constructor
  · rfl
  · rfl

/-- Modelled from the spec: the extractor Registry of
coffea.lookup_tools.  Pending weight-set sources are recorded first
(each source resolving, via the out-of-scope loader collaborator, to a
list of key and entry pairs), then finalize seals the registry and
installs the key to table mapping.  The entry type is abstract. -/
structure extractor (ε : Type) where
  pending : List (List (String × ε))
  sealedFlag : Bool
  tables : List (String × ε)

/-- Modelled from the spec: the empty, unsealed registry. -/
def extractor.empty (ε : Type) : extractor ε :=
  { pending := [], sealedFlag := false, tables := [] }

/-- Modelled from the spec: record one pending source (the key and
entry pairs its loader would produce).  Fails with AlreadySealed after
finalize, otherwise appends the source to the pending list. -/
def extractor.add_source (ex : extractor ε) (src : List (String × ε)) :
    Except LookupError (extractor ε) :=
  if ex.sealedFlag then Except.error LookupError.AlreadySealed
  else Except.ok { pending := ex.pending ++ [src],
                   sealedFlag := false, tables := ex.tables }

/-- Modelled from the spec: finalize resolves all pending sources into
the sealed key to table mapping.  Fails with DuplicateKey when two
sources would produce the same key (the policy chosen consistently for
every collision, never an overwrite), and with AlreadySealed when the
registry is already sealed. -/
def extractor.finalize (ex : extractor ε) : Except LookupError (extractor ε) :=
  if ex.sealedFlag then Except.error LookupError.AlreadySealed
  else if ((ex.pending.flatten).map Prod.fst).Nodup then
    Except.ok { pending := [], sealedFlag := true, tables := ex.pending.flatten }
  else Except.error LookupError.DuplicateKey

/-- Modelled from the spec: list the registered keys; valid only after
finalize. -/
def extractor.keys (ex : extractor ε) : Except LookupError (List String) :=
  if ex.sealedFlag then Except.ok (ex.tables.map Prod.fst)
  else Except.error LookupError.NotFinalized

/-- Modelled from the spec: fetch a table by key; valid only after
finalize, failing with UnknownKey when the key is absent. -/
def extractor.get (ex : extractor ε) (k : String) : Except LookupError ε :=
  if ex.sealedFlag then
    match ex.tables.find? (fun p => p.1 == k) with
    | some p => Except.ok p.2
    | none => Except.error LookupError.UnknownKey
  else Except.error LookupError.NotFinalized


/-- C6. After finalize succeeds, the registry is sealed: every
subsequent add_source fails with AlreadySealed (and a second finalize
fails the same way), so the sealed key to table mapping can never again
be mutated, extended or shrunk; queries are valid exactly after
finalize: keys lists the sealed mapping and get resolves every key
against it (present keys succeed, absent keys fail with UnknownKey and
never with NotFinalized), while before finalize both keys and get fail
with NotFinalized. -/
theorem extractor_finalize_seals {ε : Type} (ex ex' : extractor ε)
    (h : ex.finalize = Except.ok ex') :
    ex'.sealedFlag = true ∧
    (∀ src, ex'.add_source src = Except.error LookupError.AlreadySealed) ∧
    ex'.finalize = Except.error LookupError.AlreadySealed ∧
    ex'.tables = ex.pending.flatten ∧
    ex'.keys = Except.ok (ex'.tables.map Prod.fst) ∧
    (∀ k, ex'.get k =
      match ex'.tables.find? (fun p => p.1 == k) with
      | some p => Except.ok p.2
      | none => Except.error LookupError.UnknownKey) ∧
    (∀ k, ex'.get k ≠ Except.error LookupError.NotFinalized) ∧
    (ex.sealedFlag = false →
      ex.keys = Except.error LookupError.NotFinalized ∧
      ∀ k, ex.get k = Except.error LookupError.NotFinalized) := by
  unfold extractor.finalize at h
  cases hseal : ex.sealedFlag with
  | true =>
    rw [hseal] at h
    simp at h
  | false =>
    rw [hseal, if_neg Bool.false_ne_true] at h
    by_cases hdup : ((ex.pending.flatten).map Prod.fst).Nodup
    · rw [if_pos hdup] at h
      have hx := Except.ok.inj h
      subst hx
      refine ⟨rfl, ?_, ?_, rfl, ?_, ?_, ?_, ?_⟩
      · intro src
        simp [extractor.add_source]
      · simp [extractor.finalize]
      · simp [extractor.keys]
      · intro k
        rfl
      · intro k
        show (match List.find? (fun p => p.1 == k) ex.pending.flatten with
          | some p => Except.ok p.2
          | none => Except.error LookupError.UnknownKey) ≠
            Except.error LookupError.NotFinalized
        cases List.find? (fun p => p.1 == k) ex.pending.flatten with
        | some p =>
          intro hcontra
          exact Except.noConfusion hcontra
        | none =>
          intro hcontra
          have := Except.error.inj hcontra
          exact LookupError.noConfusion this
      · intro h0
        refine ⟨?_, ?_⟩
        · simp [extractor.keys, hseal]
        · intro k
          simp [extractor.get, hseal]
    · rw [if_neg hdup] at h
      exact absurd h (by simp)

/-- Witness for C6: finalizing a one-source registry seals it, the
next add_source fails with AlreadySealed, get of the installed key A
succeeds, and get on the unsealed registry fails with NotFinalized. -/
theorem extractor_finalize_seals_witness :
    (extractor.mk [] true [("A", (1 : ℚ))]).add_source [("B", (2 : ℚ))] =
      Except.error LookupError.AlreadySealed ∧
    (extractor.mk [] true [("A", (1 : ℚ))]).get "A" = Except.ok 1 ∧
    (extractor.mk [[("A", (1 : ℚ))]] false []).get "A" =
      Except.error LookupError.NotFinalized :=
  ⟨(extractor_finalize_seals (extractor.mk [[("A", (1 : ℚ))]] false [])
    (extractor.mk [] true [("A", (1 : ℚ))]) rfl).2.1 [("B", (2 : ℚ))],
   ((extractor_finalize_seals (extractor.mk [[("A", (1 : ℚ))]] false [])
    (extractor.mk [] true [("A", (1 : ℚ))]) rfl).2.2.2.2.2.1 "A").trans rfl,
   ((extractor_finalize_seals (extractor.mk [[("A", (1 : ℚ))]] false [])
    (extractor.mk [] true [("A", (1 : ℚ))]) rfl).2.2.2.2.2.2.2 rfl).2 "A"⟩

/-- C7. The duplicate-key policy of finalize is a single consistent
one: on every unsealed registry whose pending sources would produce a
colliding key, finalize fails with DuplicateKey, and when the produced
keys are collision-free it succeeds and installs every pair; it never
overwrites. -/
theorem extractor_duplicate_key_policy {ε : Type} (ex : extractor ε)
    (h : ex.sealedFlag = false) :
    (¬ ((ex.pending.flatten).map Prod.fst).Nodup →
      ex.finalize = Except.error LookupError.DuplicateKey) ∧
    (((ex.pending.flatten).map Prod.fst).Nodup →
      ∃ ex', ex.finalize = Except.ok ex' ∧ ex'.tables = ex.pending.flatten) := by
  constructor
  · intro hdup
    unfold extractor.finalize
    rw [h, if_neg Bool.false_ne_true, if_neg hdup]
  · intro hdup
    refine ⟨extractor.mk [] true ex.pending.flatten, ?_, rfl⟩
    unfold extractor.finalize
    rw [h, if_neg Bool.false_ne_true, if_pos hdup]

/-- Witness for C7 at the spec scenario: sources producing keys A and B
and a third source producing A again make finalize fail with
DuplicateKey. -/
theorem extractor_duplicate_key_policy_witness :
    (extractor.mk [[("A", (1 : ℚ))], [("B", 2)], [("A", 3)]] false []).finalize =
      Except.error LookupError.DuplicateKey := by
  apply (extractor_duplicate_key_policy _ rfl).1
  intro hnd
  have : ("A" : String) ∉ ["B", "A"] := (List.nodup_cons.mp hnd).1
  simp at this

/-- Modelled from the spec: the jec_uncertainty_lookup of
coffea.lookup_tools.  Its source table stores, per bin, the pair of
uncertainty deltas declared in the junc text file (the up delta first,
then the down delta, in the file ordering). -/
structure jec_uncertainty_lookup where
  table : dense_lookup (ℚ × ℚ)

/-- Modelled from the spec: calling the uncertainty lookup.  The
matched cell holds the delta pair (dup, ddown); the call is the
multi-variant payload case and returns the fixed-size two element inner
vector of multiplicative factors, the up factor 1 + dup at index 0 and
the down factor 1 - ddown at index 1. -/
def junc_call (j : jec_uncertainty_lookup) (coords : List ℚ) :
    Except LookupError (List ℚ) :=
  match j.table.lookup coords with
  | Except.ok d => Except.ok [1 + d.1, 1 - d.2]
  | Except.error e => Except.error e

/-- Batch form of the uncertainty lookup over a ragged collection: the
result is one level more nested than the scalar batch case, a list per
group, a fixed-size inner vector per matched entry. -/
def junc_batch (j : jec_uncertainty_lookup)
    (groups : List (List (List ℚ))) :
    List (List (Except LookupError (List ℚ))) :=
  groups.map (fun g => g.map (fun coords => junc_call j coords))

/-- C3. A query of a multi-variant (up/down) table at any matched bin
returns a fixed-size two element inner vector, element 0 the up value
and element 1 the down value in the ordering declared by the source
file, and the batch result carries that inner vector per matched entry,
one level more nested than the scalar case. -/
theorem junc_up_down_ordering (j : jec_uncertainty_lookup)
    (coords : List ℚ) (dup ddown : ℚ)
    (h : j.table.lookup coords = Except.ok (dup, ddown)) :
    (∀ v, junc_call j coords = Except.ok v →
      v.length = 2 ∧ v.getD 0 0 = 1 + dup ∧ v.getD 1 0 = 1 - ddown) ∧
    junc_call j coords = Except.ok [1 + dup, 1 - ddown] ∧
    ∀ groups i g, groups.get? i = some g →
      (junc_batch j groups).get? i = some (g.map (fun c => junc_call j c)) := by
  have hcall : junc_call j coords = Except.ok [1 + dup, 1 - ddown] := by
    unfold junc_call
    rw [h]
  refine ⟨?_, hcall, ?_⟩
  · intro v hv
    rw [hcall] at hv
    have hv' := Except.ok.inj hv
    subst hv'
    exact ⟨rfl, rfl, rfl⟩
  · intro groups i g hg
    simp only [List.get?_eq_getElem?] at hg ⊢
    simp [junc_batch, List.getElem?_map, hg]

/-- Concrete one-axis uncertainty table from the first row of the junc
text file: JetEta bin -5.4 to -5.0 with delta pair 0.1183, 0.1183. -/
def sampleJunc : jec_uncertainty_lookup :=
  ⟨{ axes := [⟨"JetEta", [-5.4, -5.0]⟩], values := [(0.1183, 0.1183)] }⟩

/-- Witness for C3 at the sample uncertainty table. -/
theorem junc_up_down_ordering_witness :
    junc_call sampleJunc [-5.2] = Except.ok [1 + 0.1183, 1 - 0.1183] :=
  (junc_up_down_ordering sampleJunc [-5.2] 0.1183 0.1183 rfl).2.1

/-- C9. The uncertainty lookup does not hand back the raw stored
deltas: for a matched cell storing delta d it returns the pair of
multiplicative factors (1 + d, 1 - d), so element 0 is at least 1 and
element 1 is at most 1 whenever d is non-negative. -/
theorem junc_multiplicative_factors (j : jec_uncertainty_lookup)
    (coords : List ℚ) (d : ℚ)
    (h : j.table.lookup coords = Except.ok (d, d)) (hd : 0 ≤ d) :
    junc_call j coords = Except.ok [1 + d, 1 - d] ∧
    ∀ v, junc_call j coords = Except.ok v →
      1 ≤ v.getD 0 0 ∧ v.getD 1 0 ≤ 1 := by
  have hcall : junc_call j coords = Except.ok [1 + d, 1 - d] := by
    unfold junc_call
    rw [h]
  refine ⟨hcall, ?_⟩
  intro v hv
  rw [hcall] at hv
  have hv' := Except.ok.inj hv
  subst hv'
  constructor
  · simp
    linarith
  · simp
    linarith

/-- Witness for C9 at the sample uncertainty table. -/
theorem junc_multiplicative_factors_witness :
    1 ≤ ([1 + (0.1183 : ℚ), 1 - 0.1183].getD 0 0) ∧
      ([1 + (0.1183 : ℚ), 1 - 0.1183].getD 1 0) ≤ 1 :=
  (junc_multiplicative_factors sampleJunc [-5.2] 0.1183 rfl (by norm_num)).2
    [1 + 0.1183, 1 - 0.1183]
    (junc_multiplicative_factors sampleJunc [-5.2] 0.1183 rfl (by norm_num)).1

/-- Named column store of a jagged candidate array, flattened: an
ordered association list from column name to the per-jet values. -/
abbrev JetColumns := List (String × List ℚ)

/-- Ordered list of column names, as the notebook prints it. -/
def colNames (d : JetColumns) : List String := d.map Prod.fst

/-- Value of a named column; the first entry with the name wins, absent
columns read as empty. -/
def getCol : JetColumns → String → List ℚ
  | [], _ => []
  | p :: d, c => if p.1 = c then p.2 else getCol d c

/-- In-place update of one named column, keeping the column order and
every other column untouched. -/
def setCol (d : JetColumns) (k : String) (v : List ℚ) : JetColumns :=
  d.map (fun p => if p.1 = k then (k, v) else p)

theorem setCol_cons (p : String × List ℚ) (t : JetColumns) (k : String)
    (v : List ℚ) :
    setCol (p :: t) k v = (if p.1 = k then (k, v) else p) :: setCol t k v := rfl

theorem getCol_cons (p : String × List ℚ) (t : JetColumns) (c : String) :
    getCol (p :: t) c = if p.1 = c then p.2 else getCol t c := rfl

theorem getCol_pair (n : String) (v : List ℚ) (t : JetColumns) (c : String) :
    getCol ((n, v) :: t) c = if n = c then v else getCol t c := rfl

theorem colNames_setCol (d : JetColumns) (k : String) (v : List ℚ) :
    colNames (setCol d k v) = colNames d := by
  induction d with
  | nil => rfl
  | cons p t ih =>
    rw [setCol_cons]
    by_cases hp : p.1 = k
    · rw [if_pos hp]
      simp only [colNames, List.map_cons] at ih ⊢
      rw [hp]
      exact congrArg _ ih
    · rw [if_neg hp]
      simp only [colNames, List.map_cons] at ih ⊢
      exact congrArg _ ih

theorem getCol_setCol_ne (d : JetColumns) (k c : String) (v : List ℚ)
    (hck : c ≠ k) : getCol (setCol d k v) c = getCol d c := by
  have hkc : ¬ k = c := fun h => hck h.symm
  induction d with
  | nil => rfl
  | cons p t ih =>
    rw [setCol_cons]
    by_cases hp : p.1 = k
    · rw [if_pos hp, getCol_cons, getCol_cons]
      rw [if_neg hkc, if_neg (show ¬ p.1 = c by rw [hp]; exact hkc)]
      exact ih
    · rw [if_neg hp, getCol_cons, getCol_cons]
      by_cases hc : p.1 = c
      · rw [if_pos hc, if_pos hc]
      · rw [if_neg hc, if_neg hc]
        exact ih

theorem getCol_setCol_self (d : JetColumns) (k : String) (v : List ℚ)
    (hk : k ∈ colNames d) : getCol (setCol d k v) k = v := by
  induction d with
  | nil => simp [colNames] at hk
  | cons p t ih =>
    rw [setCol_cons]
    by_cases hp : p.1 = k
    · rw [if_pos hp, getCol_cons]
      simp
    · have hk' : k ∈ colNames t := by
        simp only [colNames, List.map_cons, List.mem_cons] at hk
        rcases hk with h | h
        · exact absurd h.symm hp
        · exact h
      rw [if_neg hp, getCol_cons, if_neg hp]
      exact ih hk'

theorem getCol_append_left (d1 d2 : JetColumns) (c : String)
    (hc : c ∈ colNames d1) : getCol (d1 ++ d2) c = getCol d1 c := by
  induction d1 with
  | nil => simp [colNames] at hc
  | cons p t ih =>
    rw [List.cons_append, getCol_cons, getCol_cons]
    by_cases hp : p.1 = c
    · rw [if_pos hp, if_pos hp]
    · have hc' : c ∈ colNames t := by
        simp only [colNames, List.map_cons, List.mem_cons] at hc
        rcases hc with h | h
        · exact absurd h.symm hp
        · exact h
      rw [if_neg hp, if_neg hp]
      exact ih hc'

theorem getCol_append_of_not_mem (d1 d2 : JetColumns) (c : String)
    (hc : c ∉ colNames d1) : getCol (d1 ++ d2) c = getCol d2 c := by
  induction d1 with
  | nil => rfl
  | cons p t ih =>
    simp only [colNames, List.map_cons, List.mem_cons] at hc
    push_neg at hc
    rw [List.cons_append, getCol_cons, if_neg (fun h => hc.1 h.symm)]
    exact ih (by simpa [colNames] using hc.2)

theorem getCol_of_not_mem (d : JetColumns) (c : String)
    (hc : c ∉ colNames d) : getCol d c = [] := by
  induction d with
  | nil => rfl
  | cons p t ih =>
    simp only [colNames, List.map_cons, List.mem_cons] at hc
    push_neg at hc
    rw [getCol_cons, if_neg (fun h => hc.1 h.symm)]
    exact ih (by simpa [colNames] using hc.2)

/-- Modelled from the spec: the JetTransformer of coffea.jetmet_tools,
holding the jet energy correction and jet energy uncertainty inputs,
reduced to their per-jet evaluation maps (eta and raw pt to the
correction factor; eta and corrected pt to the pair of up and down
multiplicative factors). -/
structure JetTransformer where
  jec : ℚ → ℚ → ℚ
  junc : ℚ → ℚ → ℚ × ℚ

/-- Corrected pt column: raw pt rescaled by the correction factor. -/
def corrPt (T : JetTransformer) (d : JetColumns) : List ℚ :=
  List.zipWith (fun e pr => pr * T.jec e pr) (getCol d "eta") (getCol d "ptRaw")

/-- Corrected mass column: raw mass rescaled by the correction factor. -/
def corrMass (T : JetTransformer) (d : JetColumns) : List ℚ :=
  List.zipWith (fun m c => m * c) (getCol d "massRaw")
    (List.zipWith T.jec (getCol d "eta") (getCol d "ptRaw"))

/-- Up variation factors at the corrected kinematics. -/
def uncUp (T : JetTransformer) (d : JetColumns) : List ℚ :=
  List.zipWith (fun e p => (T.junc e p).1) (getCol d "eta") (corrPt T d)

/-- Down variation factors at the corrected kinematics. -/
def uncDown (T : JetTransformer) (d : JetColumns) : List ℚ :=
  List.zipWith (fun e p => (T.junc e p).2) (getCol d "eta") (corrPt T d)

/-- The four systematic columns appended by the transformer, in the
order the notebook prints after transform. -/
def jesColumns (T : JetTransformer) (d : JetColumns) : JetColumns :=
  [("pt_jes_up", List.zipWith (fun p u => p * u) (corrPt T d) (uncUp T d)),
   ("mass_jes_up", List.zipWith (fun m u => m * u) (corrMass T d) (uncUp T d)),
   ("pt_jes_down", List.zipWith (fun p u => p * u) (corrPt T d) (uncDown T d)),
   ("mass_jes_down", List.zipWith (fun m u => m * u) (corrMass T d) (uncDown T d))]

/-- Modelled from the spec: JetTransformer.transform.  The jet
collection is mutated in place, represented here as explicit state
passing: pt and mass are rescaled by the correction factor, the four
systematic columns are appended, and every other column is left as it
was. -/
def JetTransformer.transform (T : JetTransformer) (d : JetColumns) :
    JetColumns :=
  setCol (setCol d "pt" (corrPt T d)) "mass" (corrMass T d) ++ jesColumns T d

/-- C10. transform updates the jet collection state by adding exactly
the columns pt_jes_up, mass_jes_up, pt_jes_down and mass_jes_down at
the end of the column list, rescaling pt and mass by the correction
factor, and leaving every pre-existing column other than the
kinematics, in particular ptRaw and massRaw, unchanged. -/
theorem transform_frame (T : JetTransformer) (d : JetColumns) :
    colNames (T.transform d) = colNames d ++
      ["pt_jes_up", "mass_jes_up", "pt_jes_down", "mass_jes_down"] ∧
    (∀ c, c ∈ colNames d → c ≠ "pt" → c ≠ "mass" →
      getCol (T.transform d) c = getCol d c) ∧
    getCol (T.transform d) "ptRaw" = getCol d "ptRaw" ∧
    getCol (T.transform d) "massRaw" = getCol d "massRaw" ∧
    ("pt" ∈ colNames d → getCol (T.transform d) "pt" = corrPt T d) ∧
    ("mass" ∈ colNames d → getCol (T.transform d) "mass" = corrMass T d) ∧
    ("pt_jes_up" ∉ colNames d → getCol (T.transform d) "pt_jes_up" =
      List.zipWith (fun p u => p * u) (corrPt T d) (uncUp T d)) ∧
    ("mass_jes_up" ∉ colNames d → getCol (T.transform d) "mass_jes_up" =
      List.zipWith (fun m u => m * u) (corrMass T d) (uncUp T d)) ∧
    ("pt_jes_down" ∉ colNames d → getCol (T.transform d) "pt_jes_down" =
      List.zipWith (fun p u => p * u) (corrPt T d) (uncDown T d)) ∧
    ("mass_jes_down" ∉ colNames d → getCol (T.transform d) "mass_jes_down" =
      List.zipWith (fun m u => m * u) (corrMass T d) (uncDown T d)) := by
  have hS : colNames (setCol (setCol d "pt" (corrPt T d)) "mass" (corrMass T d)) =
      colNames d := by
    rw [colNames_setCol, colNames_setCol]
  have hframe : ∀ c, c ∈ colNames d → c ≠ "pt" → c ≠ "mass" →
      getCol (T.transform d) c = getCol d c := by
    intro c hc hpt hmass
    unfold JetTransformer.transform
    rw [getCol_append_left _ _ c (by rw [hS]; exact hc),
      getCol_setCol_ne _ _ _ _ hmass, getCol_setCol_ne _ _ _ _ hpt]
  have hnew : ∀ c, c ∉ colNames d →
      getCol (T.transform d) c = getCol (jesColumns T d) c := by
    intro c hc
    unfold JetTransformer.transform
    rw [getCol_append_of_not_mem _ _ c (by rw [hS]; exact hc)]
  refine ⟨?_, hframe, ?_, ?_, ?_, ?_, ?_, ?_, ?_, ?_⟩
  · unfold JetTransformer.transform
    simp only [colNames, List.map_append] at hS ⊢
    rw [hS]
    rfl
  · by_cases hin : "ptRaw" ∈ colNames d
    · exact hframe "ptRaw" hin (by decide) (by decide)
    · rw [hnew "ptRaw" hin, getCol_of_not_mem d _ hin]
      unfold jesColumns
      rw [getCol_pair, if_neg (by decide), getCol_pair, if_neg (by decide),
        getCol_pair, if_neg (by decide), getCol_pair, if_neg (by decide)]
      rfl
  · by_cases hin : "massRaw" ∈ colNames d
    · exact hframe "massRaw" hin (by decide) (by decide)
    · rw [hnew "massRaw" hin, getCol_of_not_mem d _ hin]
      unfold jesColumns
      rw [getCol_pair, if_neg (by decide), getCol_pair, if_neg (by decide),
        getCol_pair, if_neg (by decide), getCol_pair, if_neg (by decide)]
      rfl
  · intro hin
    unfold JetTransformer.transform
    rw [getCol_append_left _ _ _ (by rw [hS]; exact hin),
      getCol_setCol_ne _ _ _ _ (by decide), getCol_setCol_self _ _ _ hin]
  · intro hin
    unfold JetTransformer.transform
    rw [getCol_append_left _ _ _ (by rw [hS]; exact hin),
      getCol_setCol_self _ _ _ (by rw [colNames_setCol]; exact hin)]
  · intro hin
    rw [hnew _ hin]
    unfold jesColumns
    rw [getCol_pair, if_pos rfl]
  · intro hin
    rw [hnew _ hin]
    unfold jesColumns
    rw [getCol_pair, if_neg (by decide), getCol_pair, if_pos rfl]
  · intro hin
    rw [hnew _ hin]
    unfold jesColumns
    rw [getCol_pair, if_neg (by decide), getCol_pair, if_neg (by decide),
      getCol_pair, if_pos rfl]
  · intro hin
    rw [hnew _ hin]
    unfold jesColumns
    rw [getCol_pair, if_neg (by decide), getCol_pair, if_neg (by decide),
      getCol_pair, if_neg (by decide), getCol_pair, if_pos rfl]

/-- Concrete transformer and jet collection for the witness: a constant
correction factor 2 and constant up and down factors 1.1 and 0.9. -/
def sampleTransformer : JetTransformer :=
  ⟨fun _ _ => 2, fun _ _ => (1.1, 0.9)⟩

/-- Concrete jet columns for the witness. -/
def sampleJets : JetColumns :=
  [("eta", [1]), ("ptRaw", [10]), ("massRaw", [5]), ("pt", [10]), ("mass", [5])]

/-- Witness for C10: on the sample collection the transformer rescales
pt and keeps ptRaw untouched. -/
theorem transform_frame_witness :
    getCol (sampleTransformer.transform sampleJets) "pt" =
      corrPt sampleTransformer sampleJets ∧
    getCol (sampleTransformer.transform sampleJets) "ptRaw" =
      getCol sampleJets "ptRaw" :=
  ⟨(transform_frame sampleTransformer sampleJets).2.2.2.2.1 (by decide),
   (transform_frame sampleTransformer sampleJets).2.2.1⟩
